import Mathlib

/-!
# Verification of the disco-sdk locking and replay-protection core

Shallow embedding of `src/utils/lock.ts` (`Lock`, `LockManager`) and
`src/module/MultiSigNonce.ts` (`MultiSigReplayProtection.getNonce`,
`getEncodedReplayProtection`, `ReplayGuard.accessNonceStore`).

Asynchronous JavaScript is modelled by explicit state passing: a `Lock` is a
record of its `waiters` queue (continuation handles, modelled as caller ids)
and its `mLocked` flag; methods are pure state transformers.  A thrown
`VError` is modelled with an `Except`-style error value, returned together
with the state the exception leaves behind.  For the concurrency claims a
small-step transition system over a pool of cooperative tasks is defined
further below.
-/

/-- Error thrown by `Lock.release` when the lock is not locked
(`new VError("Tried to release a Lock that was not locked")`,
`lock.ts` line 40). -/
inductive LockError where
  | illegalState
deriving DecidableEq, Repr

/-- Errors thrown by `LockManager`: `notFound key` models
`new VError("There is no lock for key " ++ key)` (`lock.ts` line 81);
`illegalState` is the propagated inner `Lock.release` error. -/
inductive ManagerError where
  | notFound (key : String)
  | illegalState
deriving DecidableEq, Repr

/-- Result of `Lock.acquire`: either the promise resolved immediately
(`acquired`) or the resolver was pushed on the FIFO `waiters` list
(`enqueued`), suspending the caller. -/
inductive AcquireResult where
  | acquired
  | enqueued
deriving DecidableEq, Repr

/-- `Lock` from `src/utils/lock.ts`: `waiters` holds the queued resolver
callbacks (identified by the waiting caller's id) in FIFO order, `mLocked`
is the lock flag. -/
structure Lock where
  waiters : List Nat := []
  mLocked : Bool := false
deriving DecidableEq, Repr

/-- The read-only `locked` getter (`lock.ts` lines 12-14). -/
def Lock.locked (l : Lock) : Bool := l.mLocked

/-- `Lock.acquire` (`lock.ts` lines 22-31): if unlocked, set `mLocked` and
resolve immediately; otherwise push the caller's resolver at the tail of
`waiters`. -/
def Lock.acquire (l : Lock) (tid : Nat) : AcquireResult × Lock :=
  if l.mLocked = false then
    (.acquired, { l with mLocked := true })
  else
    (.enqueued, { l with waiters := l.waiters ++ [tid] })

/-- `Lock.release` (`lock.ts` lines 39-49): throws if not locked; else if a
waiter is queued, shifts and resolves the head waiter (returned as
`some w`; `mLocked` is not touched); else clears `mLocked`.  On the throw
the lock state is unchanged. -/
def Lock.release (l : Lock) : Except LockError (Option Nat) × Lock :=
  if l.mLocked = false then
    (.error .illegalState, l)
  else
    match l.waiters with
    | w :: rest => (.ok (some w), { l with waiters := rest })
    | [] => (.ok none, { l with mLocked := false })

/-- Iterated `Lock.release`: collects the ids of the waiters resumed by `n`
consecutive release calls (stopping early if a release returns no waiter or
throws). -/
def Lock.releaseRun (l : Lock) : Nat → List Nat × Lock
  | 0 => ([], l)
  | n + 1 =>
    match l.release with
    | (.ok (some w), l') =>
      let p := l'.releaseRun n
      (w :: p.1, p.2)
    | (.ok none, l') => ([], l')
    | (.error _, l') => ([], l')

/-- `LockManager` from `src/utils/lock.ts`: the JavaScript object
`this.locks` is a partial map from string keys to `Lock`s, embedded as a
function `String → Option Lock`. -/
structure LockManager where
  locks : String → Option Lock

/-- A fresh manager with no locks. -/
def LockManager.empty : LockManager := ⟨fun _ => none⟩

/-- `LockManager.acquire` (`lock.ts` lines 67-73): lazily create the `Lock`
for `key`, then delegate to its `acquire`; the (possibly new) lock's
post-`acquire` state is stored under `key`. -/
def LockManager.acquire (m : LockManager) (key : String) (tid : Nat) :
    AcquireResult × LockManager :=
  let l := (m.locks key).getD {}
  let p := l.acquire tid
  (p.1, ⟨fun k => if k = key then some p.2 else m.locks k⟩)

/-- `LockManager.release` (`lock.ts` lines 80-86): throws `notFound` if no
lock is registered for `key`; else delegates to `Lock.release` (propagating
its throw with the map unchanged, as the exception aborts before the
delete check) and deletes the entry when the lock reports `locked = false`
afterwards. -/
def LockManager.release (m : LockManager) (key : String) :
    Except ManagerError (Option Nat) × LockManager :=
  match m.locks key with
  | none => (.error (.notFound key), m)
  | some l =>
    match l.release with
    | (.error _, _) => (.error .illegalState, m)
    | (.ok resumed, l') =>
      if l'.mLocked = false then
        (.ok resumed, ⟨fun k => if k = key then none else m.locks k⟩)
      else
        (.ok resumed, ⟨fun k => if k = key then some l' else m.locks k⟩)

/-- `LockManager.withLock` (`lock.ts` lines 98-105):
`try { await acquire(key); return await func(); } finally { release(key); }`.
`func` is modelled by its outcome, an `Except ε α`.  When `acquire` would
suspend (`enqueued`) the continuation depends on other tasks and is not
modelled sequentially, hence `none`.  Mirroring JavaScript `try/finally`,
`release` runs on both the success and the failure path of `func`, and an
error thrown by the `finally` block replaces `func`'s outcome. -/
def LockManager.withLock (m : LockManager) (key : String) (tid : Nat)
    (func : Except ε α) :
    Option (Except (ManagerError ⊕ ε) α × LockManager) :=
  let a := m.acquire key tid
  match a.1 with
  | .enqueued => none
  | .acquired =>
    let rel := a.2.release key
    match rel.1 with
    | .error e => some (.error (.inl e), rel.2)
    | .ok _ =>
      match func with
      | .ok v => some (.ok v, rel.2)
      | .error e => some (.error (.inr e), rel.2)

/-- The reachable `LockManager` states: the empty registry, closed under
`acquire` and `release` (and hence under `withLock`, which is their
composition). -/
inductive LockManager.Reach : LockManager → Prop where
  | init : LockManager.Reach LockManager.empty
  | acq (m : LockManager) (key : String) (tid : Nat) :
      LockManager.Reach m → LockManager.Reach (m.acquire key tid).2
  | rel (m : LockManager) (key : String) :
      LockManager.Reach m → LockManager.Reach (m.release key).2

/-- The deployment check of `MultiSigReplayProtection.getNonce`
(`MultiSigNonce.ts` line 44): the account counts as deployed whenever the
provider's `getCode` result differs from `"0x"`. -/
def isDeployedCheck (code : String) : Bool := code ≠ "0x"

/-- The emptiness check of `ReplayGuard.accessNonceStore`
(`MultiSigNonce.ts` line 120): `!code || code === "0x" || code === "0x0"`. -/
def codeIsEmpty (code : String) : Bool :=
  code = "" || code = "0x" || code = "0x0"

/-- `MultiSigReplayProtection.getNonce` (`MultiSigNonce.ts` lines 34-59),
success path.  `code` is the provider's `getCode` answer for the forwarder
address and `contractNonce` the value reported by `gnosisSafe.nonce()`;
the state is the instance field `this.nonce` (`none` = `undefined`).
Returns the produced nonce and the updated field. -/
def getNonce (code : String) (contractNonce : Nat) :
    Option Nat → Nat × Option Nat
  | none =>
    if isDeployedCheck code then (contractNonce, some contractNonce)
    else (0, some 0)
  | some n => (n + 1, some (n + 1))

/-- `n` sequential awaited calls of `getNonce` against a fixed provider
answer, collecting the returned nonces in call order. -/
def runCalls (code : String) (contractNonce : Nat) :
    Nat → Option Nat → List Nat
  | 0, _ => []
  | n + 1, st =>
    let p := getNonce code contractNonce st
    p.1 :: runCalls code contractNonce n p.2

/-- `ReplayGuard.accessNonceStore` (`MultiSigNonce.ts` lines 114-150):
returns 0 when the forwarder's code is empty per `codeIsEmpty`, otherwise
the value read from the on-chain nonce store (the external
`replayProtection.nonceStore(onchainId)` call, abstracted by the oracle
argument `stored`). -/
def accessNonceStore (code : String) (stored : Nat) : Nat :=
  if codeIsEmpty code then 0 else stored

/-- A failure of one of the external provider/contract calls awaited inside
`getNonce` (network error, malformed response). -/
inductive QueryError where
  | network (msg : String)
deriving DecidableEq, Repr

/-- `MultiSigReplayProtection.getNonce` with fallible external calls:
`codeResp` is the outcome of `provider.getCode`, `nonceResp` of
`gnosisSafe.nonce()`.  Returns the call's outcome, the updated `this.nonce`
field, and whether the initial-resolution path (deployment check plus
external fetch) was taken.  A rejected await propagates before any
assignment to `this.nonce`. -/
def getNonceE (codeResp : Except QueryError String)
    (nonceResp : Except QueryError Nat) :
    Option Nat → Except QueryError Nat × Option Nat × Bool
  | none =>
    match codeResp with
    | .error e => (.error e, none, true)
    | .ok code =>
      if isDeployedCheck code then
        match nonceResp with
        | .error e => (.error e, none, true)
        | .ok v => (.ok v, some v, true)
      else (.ok 0, some 0, true)
  | some n => (.ok (n + 1), some (n + 1), false)

/-- `MultiSigReplayProtection.getEncodedReplayProtection`
(`MultiSigNonce.ts` lines 64-71):
`try { await lock.acquire(); return encode(await getNonce()); } finally { lock.release(); }`.
The ABI encoding is a fixed injective formatting of the nonce and is
elided; the returned value is the nonce itself.  When `acquire` suspends
(`enqueued`) completion depends on other tasks, hence `none`.  Returns the
outcome, the lock state after the `finally`, the `this.nonce` field and
the initial-path flag. -/
def getEncodedReplayProtection (l : Lock) (tid : Nat)
    (codeResp : Except QueryError String) (nonceResp : Except QueryError Nat)
    (nonce : Option Nat) :
    Option (Except (LockError ⊕ QueryError) Nat × Lock × Option Nat × Bool) :=
  match l.acquire tid with
  | (.enqueued, _) => none
  | (.acquired, l1) =>
    match getNonceE codeResp nonceResp nonce with
    | (res, nonce', q) =>
      match l1.release with
      | (.error e, l2) => some (.error (.inl e), l2, nonce', q)
      | (.ok _, l2) =>
        match res with
        | .ok v => some (.ok v, l2, nonce', q)
        | .error e => some (.error (.inr e), l2, nonce', q)

/-!
## Concurrent execution model

K cooperative tasks each run `getEncodedReplayProtection` on one shared
`MultiSigReplayProtection` instance, all issued before any resolves.  The
JavaScript event loop interleaves them only at `await` points; each task is
a program counter and the shared state holds the instance's `lock`,
`nonce` field, and a count of external queries issued.  The scheduler is
fully nondeterministic (a superset of the event loop's real behaviour), so
safety statements proved over all schedules cover the source program.
-/

/-- A task's program counter inside `getEncodedReplayProtection`:
`start` = about to call `lock.acquire()`; `waiting` = resolver queued in
the lock's `waiters`; `cs0` = holds the lock, about to run the body of
`getNonce`; `fetch` = has issued the external deployment/last-value query
and awaits it; `rel r` = `getNonce` returned `r`, about to run the
`finally` block; `done r` = completed with result `r`. -/
inductive PC where
  | start
  | waiting
  | cs0
  | fetch
  | rel (r : Nat)
  | done (r : Nat)
deriving DecidableEq, Repr

/-- Whether a task is inside the lock-protected critical section. -/
def PC.inCS : PC → Bool
  | .cs0 => true
  | .fetch => true
  | .rel _ => true
  | _ => false

/-- Whether a task has completed. -/
def PC.isDone : PC → Bool
  | .done _ => true
  | _ => false

/-- The results of the completed tasks, in task-list order. -/
def doneRes (pcs : List PC) : List Nat :=
  pcs.filterMap fun pc =>
    match pc with
    | .done r => some r
    | _ => none

/-- The pending results of tasks that computed a nonce but have not yet run
the `finally` release. -/
def relRes (pcs : List PC) : List Nat :=
  pcs.filterMap fun pc =>
    match pc with
    | .rel r => some r
    | _ => none

/-- Number of tasks inside the critical section. -/
def csCount (pcs : List PC) : Nat := (pcs.filter PC.inCS).length

/-- Number of nonce values produced so far (completed plus pending). -/
def sysProgress (pcs : List PC) : Nat :=
  (doneRes pcs).length + (relRes pcs).length

/-- The environment seen by the instance: the provider's `getCode` answer
for the forwarder address and the contract-reported last nonce value. -/
structure Env where
  code : String
  last : Nat

/-- The initial nonce resolved by `getNonce`'s first run: the reported
value when the deployment check passes, otherwise 0. -/
def Env.initVal (env : Env) : Nat :=
  if isDeployedCheck env.code then env.last else 0

/-- Shared state of one `MultiSigReplayProtection` instance together with
the pool of tasks: per-task program counters, the `Lock`'s two fields, the
instance's `this.nonce` field, and the number of external queries issued. -/
structure Sys where
  pcs : List PC
  locked : Bool
  waiters : List Nat
  nonce : Option Nat
  queryCount : Nat
deriving DecidableEq, Repr

/-- Initial state: K tasks all about to call `acquire`, lock free, nonce
field `undefined`, no query issued. -/
def Sys.init (K : Nat) : Sys :=
  ⟨List.replicate K PC.start, false, [], none, 0⟩

/-- One scheduler step.  Each constructor is one segment of
`getEncodedReplayProtection` between `await` points, acting exactly as the
source does on the lock, the `nonce` field and the query count:
`lock.acquire` on a free lock enters the critical section, on a held lock
appends the caller to `waiters`; `getNonce` with `nonce == undefined`
issues the external query and later stores its resolved initial value,
with a cached nonce it increments; the `finally` release hands the lock to
the head waiter (which then runs `getNonce` itself) or clears the flag. -/
inductive Step (env : Env) : Sys → Sys → Prop where
  | startFree (s : Sys) (i : Nat)
      (h : s.pcs[i]? = some PC.start) (hl : s.locked = false) :
      Step env s { s with pcs := s.pcs.set i PC.cs0, locked := true }
  | startLocked (s : Sys) (i : Nat)
      (h : s.pcs[i]? = some PC.start) (hl : s.locked = true) :
      Step env s { s with pcs := s.pcs.set i PC.waiting,
                          waiters := s.waiters ++ [i] }
  | cs0Fetch (s : Sys) (i : Nat)
      (h : s.pcs[i]? = some PC.cs0) (hn : s.nonce = none) :
      Step env s { s with pcs := s.pcs.set i PC.fetch,
                          queryCount := s.queryCount + 1 }
  | cs0Incr (s : Sys) (i : Nat) (n : Nat)
      (h : s.pcs[i]? = some PC.cs0) (hn : s.nonce = some n) :
      Step env s { s with pcs := s.pcs.set i (PC.rel (n + 1)),
                          nonce := some (n + 1) }
  | fetchDone (s : Sys) (i : Nat)
      (h : s.pcs[i]? = some PC.fetch) :
      Step env s { s with pcs := s.pcs.set i (PC.rel env.initVal),
                          nonce := some env.initVal }
  | relWaiter (s : Sys) (i r j : Nat) (rest : List Nat)
      (h : s.pcs[i]? = some (PC.rel r)) (hw : s.waiters = j :: rest) :
      Step env s { s with pcs := (s.pcs.set i (PC.done r)).set j PC.cs0,
                          waiters := rest }
  | relNone (s : Sys) (i r : Nat)
      (h : s.pcs[i]? = some (PC.rel r)) (hw : s.waiters = []) :
      Step env s { s with pcs := s.pcs.set i (PC.done r), locked := false }

/-- States reachable from `Sys.init K` under any schedule. -/
def Reachable (env : Env) (K : Nat) (s : Sys) : Prop :=
  Relation.ReflTransGen (Step env) (Sys.init K) s

/-- The inductive invariant of the system: mutual exclusion, the lock flag
tracking occupancy, well-formed waiter queue, the nonce field tracking the
number of values produced, completed results forming a consecutive run
from `env.initVal`, pending results being the next value, and at most one
external query. -/
structure SysInv (env : Env) (K : Nat) (s : Sys) : Prop where
  len : s.pcs.length = K
  cs_le : csCount s.pcs ≤ 1
  locked_iff : s.locked = true ↔ csCount s.pcs = 1
  waiters_mem : ∀ j ∈ s.waiters, s.pcs[j]? = some PC.waiting
  waiters_nodup : s.waiters.Nodup
  nonce_eq : s.nonce =
    if sysProgress s.pcs = 0 then none
    else some (env.initVal + (sysProgress s.pcs - 1))
  done_perm :
    List.Perm (doneRes s.pcs) (List.range' env.initVal (doneRes s.pcs).length)
  rel_eq : ∀ r, PC.rel r ∈ s.pcs → r = env.initVal + (doneRes s.pcs).length
  fetch_zero : PC.fetch ∈ s.pcs → sysProgress s.pcs = 0
  query_eq : s.queryCount =
    if sysProgress s.pcs = 0 ∧ PC.fetch ∉ s.pcs then 0 else 1

theorem list_set_split {α : Type} {l : List α} {i : Nat} {a : α} (b : α)
    (h : l[i]? = some a) :
    ∃ l1 l2, l = l1 ++ a :: l2 ∧ l1.length = i ∧ l.set i b = l1 ++ b :: l2 := by
  induction l generalizing i with
  | nil => simp at h
  | cons x xs ih =>
    cases i with
    | zero =>
      simp only [List.getElem?_cons_zero, Option.some.injEq] at h
      exact ⟨[], xs, by simp [h], rfl, by simp⟩
    | succ n =>
      simp only [List.getElem?_cons_succ] at h
      obtain ⟨l1, l2, h1, h2, h3⟩ := ih h
      exact ⟨x :: l1, l2, by simp [h1], by simp [h2], by simp [h3]⟩

theorem doneRes_append (l1 l2 : List PC) :
    doneRes (l1 ++ l2) = doneRes l1 ++ doneRes l2 := by
  simp [doneRes]

theorem relRes_append (l1 l2 : List PC) :
    relRes (l1 ++ l2) = relRes l1 ++ relRes l2 := by
  simp [relRes]

theorem csCount_append (l1 l2 : List PC) :
    csCount (l1 ++ l2) = csCount l1 + csCount l2 := by
  simp [csCount]

theorem cs_alone (l1 l2 : List PC) (x : PC) (hx : x.inCS = true)
    (h : csCount (l1 ++ x :: l2) ≤ 1) :
    relRes l1 = [] ∧ relRes l2 = [] ∧ csCount (l1 ++ l2) = 0 ∧
      PC.fetch ∉ l1 ++ l2 ∧ ∀ r, PC.rel r ∉ l1 ++ l2 := by
  have hc : csCount l1 + (1 + csCount l2) ≤ 1 := by
    have : csCount (l1 ++ x :: l2) = csCount l1 + (1 + csCount l2) := by
      simp [csCount, List.filter_cons, hx]
      omega
    omega
  have h0 : csCount (l1 ++ l2) = 0 := by
    rw [csCount_append]; omega
  have hall : ∀ y ∈ l1 ++ l2, PC.inCS y = false := by
    have := List.filter_eq_nil_iff.mp (List.length_eq_zero.mp h0)
    intro y hy
    simpa using this y hy
  have hrel : ∀ r, PC.rel r ∉ l1 ++ l2 := by
    intro r hr
    have := hall _ hr
    simp [PC.inCS] at this
  have hfetch : PC.fetch ∉ l1 ++ l2 := by
    intro hf
    have := hall _ hf
    simp [PC.inCS] at this
  refine ⟨?_, ?_, h0, hfetch, hrel⟩
  · apply List.filterMap_eq_nil_iff.mpr
    intro a ha
    have := hall a (List.mem_append_left _ ha)
    cases a <;> simp_all [PC.inCS]
  · apply List.filterMap_eq_nil_iff.mpr
    intro a ha
    have := hall a (List.mem_append_right _ ha)
    cases a <;> simp_all [PC.inCS]

theorem doneRes_length_of_all_done {l : List PC}
    (h : ∀ pc ∈ l, pc.isDone = true) : (doneRes l).length = l.length := by
  induction l with
  | nil => rfl
  | cons x xs ih =>
    have hx := h x (by simp)
    have hxs := ih fun pc hpc => h pc (by simp [hpc])
    cases x <;> simp_all [PC.isDone, doneRes, List.filterMap_cons]

theorem cs_none {l : List PC} (h : csCount l = 0) :
    relRes l = [] ∧ PC.fetch ∉ l ∧ ∀ r, PC.rel r ∉ l := by
  have hall : ∀ y ∈ l, PC.inCS y = false := by
    have := List.filter_eq_nil_iff.mp (List.length_eq_zero.mp h)
    intro y hy
    simpa using this y hy
  refine ⟨?_, ?_, ?_⟩
  · simp only [relRes]
    apply List.filterMap_eq_nil_iff.mpr
    intro a ha
    have := hall a ha
    cases a <;> simp_all [PC.inCS]
  · intro hf
    have := hall _ hf
    simp [PC.inCS] at this
  · intro r hr
    have := hall _ hr
    simp [PC.inCS] at this

theorem cons_perm_range' (v D : Nat) :
    List.Perm ((v + D) :: List.range' v D) (List.range' v (D + 1)) := by
  rw [List.range'_1_concat]
  have h : List.Perm (List.range' v D ++ (v + D) :: ([] : List Nat))
      ((v + D) :: (List.range' v D ++ ([] : List Nat))) := List.perm_middle
  simpa using h.symm

theorem sysInv_init (env : Env) (K : Nat) : SysInv env K (Sys.init K) := by
  have hall : ∀ y ∈ List.replicate K PC.start, y = PC.start :=
    fun y hy => (List.mem_replicate.mp hy).2
  have hcs : csCount (List.replicate K PC.start) = 0 := by
    simp only [csCount]
    rw [List.length_eq_zero]
    apply List.filter_eq_nil_iff.mpr
    intro a ha
    rw [hall a ha]
    simp [PC.inCS]
  have hdone : doneRes (List.replicate K PC.start) = [] := by
    simp only [doneRes]
    apply List.filterMap_eq_nil_iff.mpr
    intro a ha
    rw [hall a ha]
  have hrel : relRes (List.replicate K PC.start) = [] := by
    simp only [relRes]
    apply List.filterMap_eq_nil_iff.mpr
    intro a ha
    rw [hall a ha]
  have hfetch : PC.fetch ∉ List.replicate K PC.start := by
    intro hf
    have := hall _ hf
    simp at this
  have hprog : sysProgress (List.replicate K PC.start) = 0 := by
    simp [sysProgress, hdone, hrel]
  refine ⟨?_, ?_, ?_, ?_, ?_, ?_, ?_, ?_, ?_, ?_⟩
  · exact List.length_replicate K PC.start
  · rw [show (Sys.init K).pcs = List.replicate K PC.start from rfl, hcs]
    omega
  · show false = true ↔ csCount (List.replicate K PC.start) = 1
    rw [hcs]
    simp
  · intro j hj
    simp [Sys.init] at hj
  · show List.Nodup []
    exact List.nodup_nil
  · show (none : Option Nat) = _
    rw [show (Sys.init K).pcs = List.replicate K PC.start from rfl, hprog]
    simp
  · show List.Perm (doneRes (List.replicate K PC.start))
      (List.range' env.initVal (doneRes (List.replicate K PC.start)).length)
    rw [hdone]
    simp
  · intro r hr
    have := hall _ hr
    simp at this
  · intro _
    exact hprog
  · show (0 : Nat) = _
    rw [show (Sys.init K).pcs = List.replicate K PC.start from rfl, hprog]
    rw [if_pos ⟨rfl, hfetch⟩]

theorem inv_step_startFree {env : Env} {K : Nat} {s : Sys} {i : Nat}
    (h : s.pcs[i]? = some PC.start) (hl : s.locked = false)
    (hinv : SysInv env K s) :
    SysInv env K { s with pcs := s.pcs.set i PC.cs0, locked := true } := by
  obtain ⟨l1, l2, hsp, hlen, hset⟩ := list_set_split PC.cs0 h
  have hcs0 : csCount s.pcs = 0 := by
    have hle := hinv.cs_le
    have hne : csCount s.pcs ≠ 1 := by
      intro hc
      have hb := hinv.locked_iff.mpr hc
      rw [hl] at hb
      exact Bool.false_ne_true hb
    omega
  have hcomp : csCount l1 = 0 ∧ csCount l2 = 0 := by
    rw [hsp, csCount_append] at hcs0
    have h2 : csCount (PC.start :: l2) = csCount l2 := by
      simp [csCount, List.filter_cons, PC.inCS]
    omega
  have hcs1 : csCount (l1 ++ PC.cs0 :: l2) = 1 := by
    rw [csCount_append]
    have h2 : csCount (PC.cs0 :: l2) = csCount l2 + 1 := by
      simp [csCount, List.filter_cons, PC.inCS]
    omega
  have hdr : doneRes (l1 ++ PC.cs0 :: l2) = doneRes s.pcs := by
    rw [hsp, doneRes_append, doneRes_append]
    simp [doneRes, List.filterMap_cons]
  have hrr : relRes (l1 ++ PC.cs0 :: l2) = relRes s.pcs := by
    rw [hsp, relRes_append, relRes_append]
    simp [relRes, List.filterMap_cons]
  have hsys : sysProgress (l1 ++ PC.cs0 :: l2) = sysProgress s.pcs := by
    simp [sysProgress, hdr, hrr]
  have hmem : ∀ z : PC, z ≠ PC.cs0 → z ≠ PC.start →
      (z ∈ l1 ++ PC.cs0 :: l2 ↔ z ∈ s.pcs) := by
    intro z h1 h2
    rw [hsp]
    simp [List.mem_append, List.mem_cons, h1, h2]
  refine ⟨?_, ?_, ?_, ?_, ?_, ?_, ?_, ?_, ?_, ?_⟩
  · show (s.pcs.set i PC.cs0).length = K
    rw [List.length_set]
    exact hinv.len
  · show csCount (s.pcs.set i PC.cs0) ≤ 1
    rw [hset, hcs1]
  · show true = true ↔ csCount (s.pcs.set i PC.cs0) = 1
    rw [hset, hcs1]
    simp
  · intro j hj
    have hjw := hinv.waiters_mem j hj
    have hij : i ≠ j := by
      intro e
      rw [e, hjw] at h
      simp at h
    show (s.pcs.set i PC.cs0)[j]? = some PC.waiting
    rw [List.getElem?_set_ne hij]
    exact hjw
  · exact hinv.waiters_nodup
  · show s.nonce = _
    rw [hset, hsys]
    exact hinv.nonce_eq
  · show List.Perm (doneRes (s.pcs.set i PC.cs0))
      (List.range' env.initVal (doneRes (s.pcs.set i PC.cs0)).length)
    rw [hset, hdr]
    exact hinv.done_perm
  · intro r hr
    show r = env.initVal + (doneRes (s.pcs.set i PC.cs0)).length
    rw [hset] at hr
    rw [hset, hdr]
    exact hinv.rel_eq r ((hmem _ (by simp) (by simp)).mp hr)
  · intro hf
    show sysProgress (s.pcs.set i PC.cs0) = 0
    rw [hset] at hf
    rw [hset, hsys]
    exact hinv.fetch_zero ((hmem _ (by simp) (by simp)).mp hf)
  · show s.queryCount = _
    rw [hset, hsys]
    have hfiff : (PC.fetch ∈ l1 ++ PC.cs0 :: l2) ↔ PC.fetch ∈ s.pcs :=
      hmem _ (by simp) (by simp)
    simp only [hfiff]
    exact hinv.query_eq

theorem inv_step_startLocked {env : Env} {K : Nat} {s : Sys} {i : Nat}
    (h : s.pcs[i]? = some PC.start) (_hl : s.locked = true)
    (hinv : SysInv env K s) :
    SysInv env K { s with pcs := s.pcs.set i PC.waiting,
                          waiters := s.waiters ++ [i] } := by
  obtain ⟨l1, l2, hsp, hlen, hset⟩ := list_set_split PC.waiting h
  have hcseq : csCount (l1 ++ PC.waiting :: l2) = csCount s.pcs := by
    rw [hsp, csCount_append, csCount_append]
    simp [csCount, List.filter_cons, PC.inCS]
  have hdr : doneRes (l1 ++ PC.waiting :: l2) = doneRes s.pcs := by
    rw [hsp, doneRes_append, doneRes_append]
    simp [doneRes, List.filterMap_cons]
  have hrr : relRes (l1 ++ PC.waiting :: l2) = relRes s.pcs := by
    rw [hsp, relRes_append, relRes_append]
    simp [relRes, List.filterMap_cons]
  have hsys : sysProgress (l1 ++ PC.waiting :: l2) = sysProgress s.pcs := by
    simp [sysProgress, hdr, hrr]
  have hmem : ∀ z : PC, z ≠ PC.waiting → z ≠ PC.start →
      (z ∈ l1 ++ PC.waiting :: l2 ↔ z ∈ s.pcs) := by
    intro z h1 h2
    rw [hsp]
    simp [List.mem_append, List.mem_cons, h1, h2]
  have hni : i ∉ s.waiters := by
    intro hmemw
    have hb := hinv.waiters_mem i hmemw
    rw [h] at hb
    simp at hb
  refine ⟨?_, ?_, ?_, ?_, ?_, ?_, ?_, ?_, ?_, ?_⟩
  · show (s.pcs.set i PC.waiting).length = K
    rw [List.length_set]
    exact hinv.len
  · show csCount (s.pcs.set i PC.waiting) ≤ 1
    rw [hset, hcseq]
    exact hinv.cs_le
  · show s.locked = true ↔ csCount (s.pcs.set i PC.waiting) = 1
    rw [hset, hcseq]
    exact hinv.locked_iff
  · intro j hj
    show (s.pcs.set i PC.waiting)[j]? = some PC.waiting
    rcases List.mem_append.mp hj with hjl | hjr
    · have hjw := hinv.waiters_mem j hjl
      have hij : i ≠ j := by
        intro e
        rw [e, hjw] at h
        simp at h
      rw [List.getElem?_set_ne hij]
      exact hjw
    · have hji : j = i := by simpa using hjr
      subst hji
      rw [hset, List.getElem?_append_right (by omega)]
      simp [hlen]
  · show (s.waiters ++ [i]).Nodup
    refine List.Nodup.append hinv.waiters_nodup (List.nodup_singleton i) ?_
    intro a ha hb
    simp at hb
    subst hb
    exact hni ha
  · show s.nonce = _
    rw [hset, hsys]
    exact hinv.nonce_eq
  · show List.Perm (doneRes (s.pcs.set i PC.waiting))
      (List.range' env.initVal (doneRes (s.pcs.set i PC.waiting)).length)
    rw [hset, hdr]
    exact hinv.done_perm
  · intro r hr
    show r = env.initVal + (doneRes (s.pcs.set i PC.waiting)).length
    rw [hset] at hr
    rw [hset, hdr]
    exact hinv.rel_eq r ((hmem _ (by simp) (by simp)).mp hr)
  · intro hf
    show sysProgress (s.pcs.set i PC.waiting) = 0
    rw [hset] at hf
    rw [hset, hsys]
    exact hinv.fetch_zero ((hmem _ (by simp) (by simp)).mp hf)
  · show s.queryCount = _
    rw [hset, hsys]
    have hfiff : (PC.fetch ∈ l1 ++ PC.waiting :: l2) ↔ PC.fetch ∈ s.pcs :=
      hmem _ (by simp) (by simp)
    simp only [hfiff]
    exact hinv.query_eq

theorem inv_step_cs0Fetch {env : Env} {K : Nat} {s : Sys} {i : Nat}
    (h : s.pcs[i]? = some PC.cs0) (hn : s.nonce = none)
    (hinv : SysInv env K s) :
    SysInv env K { s with pcs := s.pcs.set i PC.fetch,
                          queryCount := s.queryCount + 1 } := by
  obtain ⟨l1, l2, hsp, hlen, hset⟩ := list_set_split PC.fetch h
  have hp0 : sysProgress s.pcs = 0 := by
    by_contra hne
    have h2 := hinv.nonce_eq
    rw [hn, if_neg hne] at h2
    exact absurd h2 (by simp)
  obtain ⟨hrl1, hrl2, hcsc, hfno, hrno⟩ :=
    cs_alone l1 l2 PC.cs0 (by simp [PC.inCS])
      (by rw [← hsp]; exact hinv.cs_le)
  have hcseq : csCount (l1 ++ PC.fetch :: l2) = csCount s.pcs := by
    rw [hsp, csCount_append, csCount_append]
    simp [csCount, List.filter_cons, PC.inCS]
  have hdr : doneRes (l1 ++ PC.fetch :: l2) = doneRes s.pcs := by
    rw [hsp, doneRes_append, doneRes_append]
    simp [doneRes, List.filterMap_cons]
  have hrr : relRes (l1 ++ PC.fetch :: l2) = relRes s.pcs := by
    rw [hsp, relRes_append, relRes_append]
    simp [relRes, List.filterMap_cons]
  have hsys : sysProgress (l1 ++ PC.fetch :: l2) = sysProgress s.pcs := by
    simp [sysProgress, hdr, hrr]
  have hfold : PC.fetch ∉ s.pcs := by
    rw [hsp]
    intro hc
    simp only [List.mem_append, List.mem_cons] at hc
    rcases hc with h1 | h2 | h3
    · exact hfno (List.mem_append_left _ h1)
    · exact absurd h2 (by simp)
    · exact hfno (List.mem_append_right _ h3)
  refine ⟨?_, ?_, ?_, ?_, ?_, ?_, ?_, ?_, ?_, ?_⟩
  · show (s.pcs.set i PC.fetch).length = K
    rw [List.length_set]
    exact hinv.len
  · show csCount (s.pcs.set i PC.fetch) ≤ 1
    rw [hset, hcseq]
    exact hinv.cs_le
  · show s.locked = true ↔ csCount (s.pcs.set i PC.fetch) = 1
    rw [hset, hcseq]
    exact hinv.locked_iff
  · intro j hj
    have hjw := hinv.waiters_mem j hj
    have hij : i ≠ j := by
      intro e
      rw [e, hjw] at h
      simp at h
    show (s.pcs.set i PC.fetch)[j]? = some PC.waiting
    rw [List.getElem?_set_ne hij]
    exact hjw
  · exact hinv.waiters_nodup
  · show s.nonce = _
    rw [hset, hsys]
    exact hinv.nonce_eq
  · show List.Perm (doneRes (s.pcs.set i PC.fetch))
      (List.range' env.initVal (doneRes (s.pcs.set i PC.fetch)).length)
    rw [hset, hdr]
    exact hinv.done_perm
  · intro r hr
    rw [hset] at hr
    simp only [List.mem_append, List.mem_cons] at hr
    rcases hr with h1 | h2 | h3
    · exact absurd (List.mem_append_left _ h1) (hrno r)
    · exact absurd h2 (by simp)
    · exact absurd (List.mem_append_right _ h3) (hrno r)
  · intro _
    show sysProgress (s.pcs.set i PC.fetch) = 0
    rw [hset, hsys]
    exact hp0
  · show s.queryCount + 1 = _
    have hq := hinv.query_eq
    rw [if_pos ⟨hp0, hfold⟩] at hq
    rw [hq, hset]
    rw [if_neg ?_]
    intro hc
    exact hc.2 (by simp)

theorem relRes_cons_rel (r : Nat) (l : List PC) :
    relRes (PC.rel r :: l) = r :: relRes l := by
  simp [relRes, List.filterMap_cons]

theorem relRes_cons_cs0 (l : List PC) : relRes (PC.cs0 :: l) = relRes l := by
  simp [relRes, List.filterMap_cons]

theorem doneRes_cons_done (r : Nat) (l : List PC) :
    doneRes (PC.done r :: l) = r :: doneRes l := by
  simp [doneRes, List.filterMap_cons]

theorem doneRes_cons_rel (r : Nat) (l : List PC) :
    doneRes (PC.rel r :: l) = doneRes l := by
  simp [doneRes, List.filterMap_cons]

theorem doneRes_cons_fetch (l : List PC) :
    doneRes (PC.fetch :: l) = doneRes l := by
  simp [doneRes, List.filterMap_cons]

theorem relRes_cons_fetch (l : List PC) :
    relRes (PC.fetch :: l) = relRes l := by
  simp [relRes, List.filterMap_cons]

theorem doneRes_cons_waiting (l : List PC) :
    doneRes (PC.waiting :: l) = doneRes l := by
  simp [doneRes, List.filterMap_cons]

theorem relRes_cons_waiting (l : List PC) :
    relRes (PC.waiting :: l) = relRes l := by
  simp [relRes, List.filterMap_cons]

theorem inv_step_cs0Incr {env : Env} {K : Nat} {s : Sys} {i n : Nat}
    (h : s.pcs[i]? = some PC.cs0) (hn : s.nonce = some n)
    (hinv : SysInv env K s) :
    SysInv env K { s with pcs := s.pcs.set i (PC.rel (n + 1)),
                          nonce := some (n + 1) } := by
  obtain ⟨l1, l2, hsp, hlen, hset⟩ := list_set_split (PC.rel (n + 1)) h
  obtain ⟨hrl1, hrl2, hcsc, hfno, hrno⟩ :=
    cs_alone l1 l2 PC.cs0 (by simp [PC.inCS])
      (by rw [← hsp]; exact hinv.cs_le)
  have hppos : sysProgress s.pcs ≠ 0 := by
    intro h0
    have h2 := hinv.nonce_eq
    rw [hn, if_pos h0] at h2
    exact absurd h2 (by simp)
  have hneq : n = env.initVal + (sysProgress s.pcs - 1) := by
    have h2 := hinv.nonce_eq
    rw [hn, if_neg hppos] at h2
    simpa using h2
  have hdold : doneRes s.pcs = doneRes l1 ++ doneRes l2 := by
    rw [hsp, doneRes_append]
    simp [doneRes, List.filterMap_cons]
  have hrold : relRes s.pcs = [] := by
    rw [hsp, relRes_append, hrl1, relRes_cons_cs0, hrl2]
    rfl
  have hpold : sysProgress s.pcs = (doneRes s.pcs).length := by
    simp [sysProgress, hrold]
  have hdnew : doneRes (l1 ++ PC.rel (n + 1) :: l2) = doneRes s.pcs := by
    rw [hdold, doneRes_append]
    simp [doneRes, List.filterMap_cons]
  have hrnew : relRes (l1 ++ PC.rel (n + 1) :: l2) = [n + 1] := by
    rw [relRes_append, hrl1, relRes_cons_rel, hrl2]
    rfl
  have hpnew : sysProgress (l1 ++ PC.rel (n + 1) :: l2) = sysProgress s.pcs + 1 := by
    simp only [sysProgress, hdnew, hrnew, hrold]
    simp
  have hcseq : csCount (l1 ++ PC.rel (n + 1) :: l2) = csCount s.pcs := by
    rw [hsp, csCount_append, csCount_append]
    simp [csCount, List.filter_cons, PC.inCS]
  refine ⟨?_, ?_, ?_, ?_, ?_, ?_, ?_, ?_, ?_, ?_⟩
  · show (s.pcs.set i (PC.rel (n + 1))).length = K
    rw [List.length_set]
    exact hinv.len
  · show csCount (s.pcs.set i (PC.rel (n + 1))) ≤ 1
    rw [hset, hcseq]
    exact hinv.cs_le
  · show s.locked = true ↔ csCount (s.pcs.set i (PC.rel (n + 1))) = 1
    rw [hset, hcseq]
    exact hinv.locked_iff
  · intro j hj
    have hjw := hinv.waiters_mem j hj
    have hij : i ≠ j := by
      intro e
      rw [e, hjw] at h
      simp at h
    show (s.pcs.set i (PC.rel (n + 1)))[j]? = some PC.waiting
    rw [List.getElem?_set_ne hij]
    exact hjw
  · exact hinv.waiters_nodup
  · show some (n + 1) = _
    rw [hset, hpnew]
    rw [if_neg (by omega)]
    have hplen := hpold
    congr 1
    omega
  · show List.Perm (doneRes (s.pcs.set i (PC.rel (n + 1))))
      (List.range' env.initVal (doneRes (s.pcs.set i (PC.rel (n + 1)))).length)
    rw [hset, hdnew]
    exact hinv.done_perm
  · intro r hr
    show r = env.initVal + (doneRes (s.pcs.set i (PC.rel (n + 1)))).length
    rw [hset] at hr
    rw [hset, hdnew]
    simp only [List.mem_append, List.mem_cons] at hr
    rcases hr with h1 | h2 | h3
    · exact absurd (List.mem_append_left _ h1) (hrno r)
    · have : r = n + 1 := by simpa using h2
      rw [this, hneq, ← hpold]
      omega
    · exact absurd (List.mem_append_right _ h3) (hrno r)
  · intro hf
    rw [hset] at hf
    simp only [List.mem_append, List.mem_cons] at hf
    rcases hf with h1 | h2 | h3
    · exact absurd (List.mem_append_left _ h1) hfno
    · exact absurd h2 (by simp)
    · exact absurd (List.mem_append_right _ h3) hfno
  · show s.queryCount = _
    have hq := hinv.query_eq
    rw [if_neg (fun hc => hppos hc.1)] at hq
    rw [hq, hset, hpnew]
    rw [if_neg (by omega)]

theorem inv_step_fetchDone {env : Env} {K : Nat} {s : Sys} {i : Nat}
    (h : s.pcs[i]? = some PC.fetch)
    (hinv : SysInv env K s) :
    SysInv env K { s with pcs := s.pcs.set i (PC.rel env.initVal),
                          nonce := some env.initVal } := by
  obtain ⟨l1, l2, hsp, hlen, hset⟩ := list_set_split (PC.rel env.initVal) h
  obtain ⟨hrl1, hrl2, hcsc, hfno, hrno⟩ :=
    cs_alone l1 l2 PC.fetch (by simp [PC.inCS])
      (by rw [← hsp]; exact hinv.cs_le)
  have hfmem : PC.fetch ∈ s.pcs := by
    rw [hsp]
    simp
  have hp0 : sysProgress s.pcs = 0 := hinv.fetch_zero hfmem
  have hdold : doneRes s.pcs = doneRes l1 ++ doneRes l2 := by
    rw [hsp, doneRes_append, doneRes_cons_fetch]
  have hdnil : doneRes l1 = [] ∧ doneRes l2 = [] := by
    have hlen0 : (doneRes s.pcs).length = 0 := by
      have := hp0
      simp only [sysProgress] at this
      omega
    rw [hdold] at hlen0
    simp only [List.length_append] at hlen0
    exact ⟨List.length_eq_zero.mp (by omega), List.length_eq_zero.mp (by omega)⟩
  have hdnew : doneRes (l1 ++ PC.rel env.initVal :: l2) = [] := by
    rw [doneRes_append, doneRes_cons_rel, hdnil.1, hdnil.2]
    rfl
  have hrnew : relRes (l1 ++ PC.rel env.initVal :: l2) = [env.initVal] := by
    rw [relRes_append, hrl1, relRes_cons_rel, hrl2]
    rfl
  have hpnew : sysProgress (l1 ++ PC.rel env.initVal :: l2) = 1 := by
    simp [sysProgress, hdnew, hrnew]
  have hcseq : csCount (l1 ++ PC.rel env.initVal :: l2) = csCount s.pcs := by
    rw [hsp, csCount_append, csCount_append]
    simp [csCount, List.filter_cons, PC.inCS]
  refine ⟨?_, ?_, ?_, ?_, ?_, ?_, ?_, ?_, ?_, ?_⟩
  · show (s.pcs.set i (PC.rel env.initVal)).length = K
    rw [List.length_set]
    exact hinv.len
  · show csCount (s.pcs.set i (PC.rel env.initVal)) ≤ 1
    rw [hset, hcseq]
    exact hinv.cs_le
  · show s.locked = true ↔ csCount (s.pcs.set i (PC.rel env.initVal)) = 1
    rw [hset, hcseq]
    exact hinv.locked_iff
  · intro j hj
    have hjw := hinv.waiters_mem j hj
    have hij : i ≠ j := by
      intro e
      rw [e, hjw] at h
      simp at h
    show (s.pcs.set i (PC.rel env.initVal))[j]? = some PC.waiting
    rw [List.getElem?_set_ne hij]
    exact hjw
  · exact hinv.waiters_nodup
  · show some env.initVal = _
    rw [hset, hpnew]
    simp
  · show List.Perm (doneRes (s.pcs.set i (PC.rel env.initVal)))
      (List.range' env.initVal (doneRes (s.pcs.set i (PC.rel env.initVal))).length)
    rw [hset, hdnew]
    simp
  · intro r hr
    show r = env.initVal + (doneRes (s.pcs.set i (PC.rel env.initVal))).length
    rw [hset] at hr
    rw [hset, hdnew]
    simp only [List.mem_append, List.mem_cons] at hr
    rcases hr with h1 | h2 | h3
    · exact absurd (List.mem_append_left _ h1) (hrno r)
    · have : r = env.initVal := by simpa using h2
      rw [this]
      rfl
    · exact absurd (List.mem_append_right _ h3) (hrno r)
  · intro hf
    rw [hset] at hf
    simp only [List.mem_append, List.mem_cons] at hf
    rcases hf with h1 | h2 | h3
    · exact absurd (List.mem_append_left _ h1) hfno
    · exact absurd h2 (by simp)
    · exact absurd (List.mem_append_right _ h3) hfno
  · show s.queryCount = _
    have hq := hinv.query_eq
    rw [if_neg (fun hc => hc.2 hfmem)] at hq
    rw [hq, hset, hpnew]
    rw [if_neg (by omega)]

theorem relRes_cons_done (r : Nat) (l : List PC) :
    relRes (PC.done r :: l) = relRes l := by
  simp [relRes, List.filterMap_cons]

theorem doneRes_cons_cs0 (l : List PC) : doneRes (PC.cs0 :: l) = doneRes l := by
  simp [doneRes, List.filterMap_cons]

theorem inv_step_relWaiter {env : Env} {K : Nat} {s : Sys} {i r j : Nat}
    {rest : List Nat}
    (h : s.pcs[i]? = some (PC.rel r)) (hw : s.waiters = j :: rest)
    (hinv : SysInv env K s) :
    SysInv env K { s with pcs := (s.pcs.set i (PC.done r)).set j PC.cs0,
                          waiters := rest } := by
  obtain ⟨l1, l2, hsp, hlen, hset⟩ := list_set_split (PC.done r) h
  have hjmem : j ∈ s.waiters := by rw [hw]; simp
  have hjw : s.pcs[j]? = some PC.waiting := hinv.waiters_mem j hjmem
  have hij : i ≠ j := by
    intro e
    rw [e, hjw] at h
    simp at h
  have hqj : (s.pcs.set i (PC.done r))[j]? = some PC.waiting := by
    rw [List.getElem?_set_ne hij]
    exact hjw
  obtain ⟨m1, m2, hqsp, hmlen, hqset⟩ := list_set_split PC.cs0 hqj
  obtain ⟨hrl1, hrl2, hcsc, hfno, hrno⟩ :=
    cs_alone l1 l2 (PC.rel r) (by simp [PC.inCS])
      (by rw [← hsp]; exact hinv.cs_le)
  have hdold : doneRes s.pcs = doneRes l1 ++ doneRes l2 := by
    rw [hsp, doneRes_append, doneRes_cons_rel]
  have hrold : relRes s.pcs = [r] := by
    rw [hsp, relRes_append, hrl1, relRes_cons_rel, hrl2]
    rfl
  have hcsold : csCount s.pcs = 1 := by
    rw [hsp, csCount_append]
    have h2 : csCount (PC.rel r :: l2) = csCount l2 + 1 := by
      simp [csCount, List.filter_cons, PC.inCS]
    rw [csCount_append] at hcsc
    omega
  have hlocked : s.locked = true := hinv.locked_iff.mpr hcsold
  have hdq : doneRes (s.pcs.set i (PC.done r)) = doneRes l1 ++ r :: doneRes l2 := by
    rw [hset, doneRes_append, doneRes_cons_done]
  have hcsq : csCount (s.pcs.set i (PC.done r)) = 0 := by
    rw [hset, csCount_append]
    have h2 : csCount (PC.done r :: l2) = csCount l2 := by
      simp [csCount, List.filter_cons, PC.inCS]
    rw [csCount_append] at hcsc
    omega
  have hcm : csCount m1 = 0 ∧ csCount m2 = 0 := by
    rw [hqsp, csCount_append] at hcsq
    have h2 : csCount (PC.waiting :: m2) = csCount m2 := by
      simp [csCount, List.filter_cons, PC.inCS]
    omega
  obtain ⟨hrm1, hfm1, hrnom1⟩ := cs_none hcm.1
  obtain ⟨hrm2, hfm2, hrnom2⟩ := cs_none hcm.2
  have hdfin : doneRes (m1 ++ PC.cs0 :: m2) = doneRes l1 ++ r :: doneRes l2 := by
    rw [doneRes_append, doneRes_cons_cs0, ← doneRes_cons_waiting m2,
      ← doneRes_append, ← hqsp, hdq]
  have hrfin : relRes (m1 ++ PC.cs0 :: m2) = [] := by
    rw [relRes_append, hrm1, relRes_cons_cs0, hrm2]
    rfl
  have hpfin : sysProgress (m1 ++ PC.cs0 :: m2) = sysProgress s.pcs := by
    simp only [sysProgress, hrfin, hrold, hdfin, hdold, List.length_append,
      List.length_cons, List.length_nil]
    omega
  have hcsfin : csCount (m1 ++ PC.cs0 :: m2) = 1 := by
    rw [csCount_append]
    have h2 : csCount (PC.cs0 :: m2) = csCount m2 + 1 := by
      simp [csCount, List.filter_cons, PC.inCS]
    omega
  have hrval : r = env.initVal + (doneRes s.pcs).length :=
    hinv.rel_eq r (by rw [hsp]; simp)
  have hpn1 : sysProgress s.pcs = (doneRes s.pcs).length + 1 := by
    simp only [sysProgress, hrold]
    simp
  refine ⟨?_, ?_, ?_, ?_, ?_, ?_, ?_, ?_, ?_, ?_⟩
  · show ((s.pcs.set i (PC.done r)).set j PC.cs0).length = K
    rw [List.length_set, List.length_set]
    exact hinv.len
  · show csCount ((s.pcs.set i (PC.done r)).set j PC.cs0) ≤ 1
    rw [hqset, hcsfin]
  · show s.locked = true ↔ csCount ((s.pcs.set i (PC.done r)).set j PC.cs0) = 1
    rw [hqset, hcsfin]
    simp [hlocked]
  · intro k hk
    have hks : k ∈ s.waiters := by rw [hw]; simp [hk]
    have hkw := hinv.waiters_mem k hks
    have hik : i ≠ k := by
      intro e
      rw [e, hkw] at h
      simp at h
    have hjk : j ≠ k := by
      intro e
      have hjr : j ∈ rest := by rw [e]; exact hk
      have hnd := hinv.waiters_nodup
      rw [hw] at hnd
      exact (List.nodup_cons.mp hnd).1 hjr
    show ((s.pcs.set i (PC.done r)).set j PC.cs0)[k]? = some PC.waiting
    rw [List.getElem?_set_ne hjk, List.getElem?_set_ne hik]
    exact hkw
  · have hnd := hinv.waiters_nodup
    rw [hw] at hnd
    exact (List.nodup_cons.mp hnd).2
  · show s.nonce = _
    rw [hqset, hpfin]
    exact hinv.nonce_eq
  · show List.Perm (doneRes ((s.pcs.set i (PC.done r)).set j PC.cs0))
      (List.range' env.initVal
        (doneRes ((s.pcs.set i (PC.done r)).set j PC.cs0)).length)
    rw [hqset, hdfin]
    have hlen2 : (doneRes l1 ++ r :: doneRes l2).length =
        (doneRes s.pcs).length + 1 := by
      simp only [hdold, List.length_append, List.length_cons]
      omega
    rw [hlen2]
    have p1 : List.Perm (doneRes l1 ++ r :: doneRes l2)
        (r :: (doneRes l1 ++ doneRes l2)) := List.perm_middle
    have p2 : List.Perm (r :: (doneRes l1 ++ doneRes l2))
        (r :: List.range' env.initVal (doneRes s.pcs).length) := by
      rw [← hdold]
      exact List.Perm.cons r hinv.done_perm
    have p3 : List.Perm (r :: List.range' env.initVal (doneRes s.pcs).length)
        (List.range' env.initVal ((doneRes s.pcs).length + 1)) := by
      rw [hrval]
      exact cons_perm_range' env.initVal (doneRes s.pcs).length
    exact (p1.trans p2).trans p3
  · intro r' hr'
    rw [hqset] at hr'
    simp only [List.mem_append, List.mem_cons] at hr'
    rcases hr' with h1 | h2 | h3
    · exact absurd h1 (hrnom1 r')
    · exact absurd h2 (by simp)
    · exact absurd h3 (hrnom2 r')
  · intro hf
    rw [hqset] at hf
    simp only [List.mem_append, List.mem_cons] at hf
    rcases hf with h1 | h2 | h3
    · exact absurd h1 hfm1
    · exact absurd h2 (by simp)
    · exact absurd h3 hfm2
  · show s.queryCount = _
    have hq := hinv.query_eq
    rw [if_neg ?_] at hq
    · rw [hq, hqset, hpfin]
      rw [if_neg ?_]
      intro hc
      obtain ⟨h1, _⟩ := hc
      omega
    · intro hc
      obtain ⟨h1, _⟩ := hc
      omega

theorem inv_step_relNone {env : Env} {K : Nat} {s : Sys} {i r : Nat}
    (h : s.pcs[i]? = some (PC.rel r)) (hw : s.waiters = [])
    (hinv : SysInv env K s) :
    SysInv env K { s with pcs := s.pcs.set i (PC.done r), locked := false } := by
  obtain ⟨l1, l2, hsp, hlen, hset⟩ := list_set_split (PC.done r) h
  obtain ⟨hrl1, hrl2, hcsc, hfno, hrno⟩ :=
    cs_alone l1 l2 (PC.rel r) (by simp [PC.inCS])
      (by rw [← hsp]; exact hinv.cs_le)
  have hdold : doneRes s.pcs = doneRes l1 ++ doneRes l2 := by
    rw [hsp, doneRes_append, doneRes_cons_rel]
  have hrold : relRes s.pcs = [r] := by
    rw [hsp, relRes_append, hrl1, relRes_cons_rel, hrl2]
    rfl
  have hdfin : doneRes (l1 ++ PC.done r :: l2) = doneRes l1 ++ r :: doneRes l2 := by
    rw [doneRes_append, doneRes_cons_done]
  have hrfin : relRes (l1 ++ PC.done r :: l2) = [] := by
    rw [relRes_append, hrl1, relRes_cons_done, hrl2]
    rfl
  have hpfin : sysProgress (l1 ++ PC.done r :: l2) = sysProgress s.pcs := by
    simp only [sysProgress, hrfin, hrold, hdfin, hdold, List.length_append,
      List.length_cons, List.length_nil]
    omega
  have hcsfin : csCount (l1 ++ PC.done r :: l2) = 0 := by
    rw [csCount_append]
    have h2 : csCount (PC.done r :: l2) = csCount l2 := by
      simp [csCount, List.filter_cons, PC.inCS]
    rw [csCount_append] at hcsc
    omega
  have hrval : r = env.initVal + (doneRes s.pcs).length :=
    hinv.rel_eq r (by rw [hsp]; simp)
  have hpn1 : sysProgress s.pcs = (doneRes s.pcs).length + 1 := by
    simp only [sysProgress, hrold]
    simp
  refine ⟨?_, ?_, ?_, ?_, ?_, ?_, ?_, ?_, ?_, ?_⟩
  · show (s.pcs.set i (PC.done r)).length = K
    rw [List.length_set]
    exact hinv.len
  · show csCount (s.pcs.set i (PC.done r)) ≤ 1
    rw [hset, hcsfin]
    omega
  · show false = true ↔ csCount (s.pcs.set i (PC.done r)) = 1
    rw [hset, hcsfin]
    simp
  · intro j hj
    rw [hw] at hj
    simp at hj
  · exact hinv.waiters_nodup
  · show s.nonce = _
    rw [hset, hpfin]
    exact hinv.nonce_eq
  · show List.Perm (doneRes (s.pcs.set i (PC.done r)))
      (List.range' env.initVal (doneRes (s.pcs.set i (PC.done r))).length)
    rw [hset, hdfin]
    have hlen2 : (doneRes l1 ++ r :: doneRes l2).length =
        (doneRes s.pcs).length + 1 := by
      simp only [hdold, List.length_append, List.length_cons]
      omega
    rw [hlen2]
    have p1 : List.Perm (doneRes l1 ++ r :: doneRes l2)
        (r :: (doneRes l1 ++ doneRes l2)) := List.perm_middle
    have p2 : List.Perm (r :: (doneRes l1 ++ doneRes l2))
        (r :: List.range' env.initVal (doneRes s.pcs).length) := by
      rw [← hdold]
      exact List.Perm.cons r hinv.done_perm
    have p3 : List.Perm (r :: List.range' env.initVal (doneRes s.pcs).length)
        (List.range' env.initVal ((doneRes s.pcs).length + 1)) := by
      rw [hrval]
      exact cons_perm_range' env.initVal (doneRes s.pcs).length
    exact (p1.trans p2).trans p3
  · intro r' hr'
    rw [hset] at hr'
    simp only [List.mem_append, List.mem_cons] at hr'
    rcases hr' with h1 | h2 | h3
    · exact absurd (List.mem_append_left _ h1) (hrno r')
    · exact absurd h2 (by simp)
    · exact absurd (List.mem_append_right _ h3) (hrno r')
  · intro hf
    rw [hset] at hf
    simp only [List.mem_append, List.mem_cons] at hf
    rcases hf with h1 | h2 | h3
    · exact absurd (List.mem_append_left _ h1) hfno
    · exact absurd h2 (by simp)
    · exact absurd (List.mem_append_right _ h3) hfno
  · show s.queryCount = _
    have hq := hinv.query_eq
    rw [if_neg ?_] at hq
    · rw [hq, hset, hpfin]
      rw [if_neg ?_]
      intro hc
      obtain ⟨h1, _⟩ := hc
      omega
    · intro hc
      obtain ⟨h1, _⟩ := hc
      omega

theorem sysInv_step {env : Env} {K : Nat} {s s' : Sys}
    (hs : Step env s s') (hinv : SysInv env K s) : SysInv env K s' := by
  cases hs with
  | startFree i h hl => exact inv_step_startFree h hl hinv
  | startLocked i h hl => exact inv_step_startLocked h hl hinv
  | cs0Fetch i h hn => exact inv_step_cs0Fetch h hn hinv
  | cs0Incr i n h hn => exact inv_step_cs0Incr h hn hinv
  | fetchDone i h => exact inv_step_fetchDone h hinv
  | relWaiter i r j rest h hw => exact inv_step_relWaiter h hw hinv
  | relNone i r h hw => exact inv_step_relNone h hw hinv

theorem sysInv_reachable {env : Env} {K : Nat} {s : Sys}
    (h : Reachable env K s) : SysInv env K s := by
  induction h with
  | refl => exact sysInv_init env K
  | tail _ hstep ih => exact sysInv_step hstep ih

/-- C2: the first successful read of `getNonce` (field unset) returns the
externally reported last value when the deployment check passes and 0 when
it does not; every subsequent successful read returns the previous cached
value plus one and updates the cache accordingly. -/
theorem getNonce_first_and_increment :
    (∀ code last, isDeployedCheck code = true →
      getNonce code last none = (last, some last)) ∧
    (∀ code last, isDeployedCheck code = false →
      getNonce code last none = (0, some 0)) ∧
    (∀ code last n, getNonce code last (some n) = (n + 1, some (n + 1))) := by
  refine ⟨?_, ?_, ?_⟩
  · intro code last h
    simp [getNonce, h]
  · intro code last h
    simp [getNonce, h]
  · intro code last n
    rfl

theorem getNonce_first_and_increment_witness :
    getNonce "0x6080" 41 none = (41, some 41) ∧
    getNonce "0x" 41 none = (0, some 0) ∧
    getNonce "0x6080" 41 (some 41) = (42, some 42) :=
  ⟨getNonce_first_and_increment.1 "0x6080" 41 (by decide),
   getNonce_first_and_increment.2.1 "0x" 41 (by decide),
   getNonce_first_and_increment.2.2 "0x6080" 41 41⟩

/-- C3: `Lock.acquire` on an unlocked lock sets `locked` and returns
immediately (`acquired`, no suspension); on a locked lock it appends the
caller at the tail of `waiters`; and iterated release resumes the queued
waiters in exactly enqueue order (strict FIFO), each release handing
ownership directly to the head waiter. -/
theorem lock_acquire_fifo :
    (∀ (l : Lock) (tid : Nat), l.mLocked = false →
      l.acquire tid = (.acquired, ⟨l.waiters, true⟩)) ∧
    (∀ (l : Lock) (tid : Nat), l.mLocked = true →
      l.acquire tid = (.enqueued, ⟨l.waiters ++ [tid], true⟩)) ∧
    (∀ ws : List Nat,
      Lock.releaseRun ⟨ws, true⟩ ws.length = (ws, ⟨[], true⟩)) := by
  refine ⟨?_, ?_, ?_⟩
  · intro l tid h
    simp [Lock.acquire, h]
  · intro l tid h
    simp [Lock.acquire, h]
  · intro ws
    induction ws with
    | nil => rfl
    | cons w rest ih =>
      show Lock.releaseRun ⟨w :: rest, true⟩ (rest.length + 1) = _
      simp [Lock.releaseRun, Lock.release, ih]

theorem lock_acquire_fifo_witness :
    Lock.acquire ⟨[], false⟩ 7 = (.acquired, ⟨[], true⟩) ∧
    Lock.acquire ⟨[5], true⟩ 7 = (.enqueued, ⟨[5, 7], true⟩) ∧
    Lock.releaseRun ⟨[3, 4, 5], true⟩ 3 = ([3, 4, 5], ⟨[], true⟩) :=
  ⟨lock_acquire_fifo.1 ⟨[], false⟩ 7 rfl,
   lock_acquire_fifo.2.1 ⟨[5], true⟩ 7 rfl,
   lock_acquire_fifo.2.2 [3, 4, 5]⟩

/-- C4: `Lock.release` on a locked lock with an empty waiter queue clears
`locked`; with a non-empty queue it resumes the head waiter with `locked`
still true in the resulting state — the source performs the hand-off in
one synchronous step that never assigns `mLocked = false`, so no lock-free
window exists. -/
theorem lock_release_no_unlock_window :
    (∀ l : Lock, l.mLocked = true → l.waiters = [] →
      l.release = (.ok none, ⟨[], false⟩)) ∧
    (∀ (l : Lock) (w : Nat) (rest : List Nat), l.mLocked = true →
      l.waiters = w :: rest →
      l.release = (.ok (some w), ⟨rest, true⟩)) := by
  constructor
  · intro l h1 h2
    simp [Lock.release, h1, h2]
  · intro l w rest h1 h2
    simp [Lock.release, h1, h2]

theorem lock_release_no_unlock_window_witness :
    Lock.release ⟨[], true⟩ = (.ok none, ⟨[], false⟩) ∧
    Lock.release ⟨[4, 9], true⟩ = (.ok (some 4), ⟨[9], true⟩) :=
  ⟨lock_release_no_unlock_window.1 ⟨[], true⟩ rfl rfl,
   lock_release_no_unlock_window.2 ⟨[4, 9], true⟩ 4 [9] rfl rfl⟩

/-- C8: `Lock.release` while unlocked throws the illegal-state `VError`
with the lock unchanged, and `LockManager.release` on an unregistered key
throws the not-found `VError` returning the registry unchanged (hence
every other key's entry is untouched). -/
theorem release_error_cases :
    (∀ l : Lock, l.mLocked = false → l.release = (.error .illegalState, l)) ∧
    (∀ (m : LockManager) (key : String), m.locks key = none →
      m.release key = (.error (.notFound key), m)) := by
  constructor
  · intro l h
    simp [Lock.release, h]
  · intro m key h
    simp [LockManager.release, h]

theorem release_error_cases_witness :
    Lock.release ⟨[], false⟩ = (.error .illegalState, ⟨[], false⟩) ∧
    LockManager.empty.release "k" = (.error (.notFound "k"), LockManager.empty) :=
  ⟨release_error_cases.1 ⟨[], false⟩ rfl,
   release_error_cases.2 LockManager.empty "k" rfl⟩

/-- C9 counterexample: for a deployed forwarder whose contract reports
last value 41, two sequential awaited calls return `[41, 42]`, not
`[42, 43]` as claimed — the first call returns the fetched value itself,
not the value plus one. -/
theorem deployed_41_two_calls_ne_42_43 :
    runCalls "0x6080" 41 2 none ≠ [42, 43] := by decide

/-- C9 (amended): for a deployed forwarder whose contract reports last
value 41, two sequential awaited calls return 41 and then 42. -/
theorem deployed_41_two_calls_41_42 (code : String)
    (h : isDeployedCheck code = true) :
    runCalls code 41 2 none = [41, 42] := by
  simp [runCalls, getNonce, h]

theorem deployed_41_two_calls_41_42_witness :
    runCalls "0x6080" 41 2 none = [41, 42] :=
  deployed_41_two_calls_41_42 "0x6080" (by decide)

/-- C10: the two deployment checks disagree on the provider code string
`"0x0"`: `getNonce`'s check (`code !== "0x"`) treats it as deployed, so
the first call returns the fetched contract nonce, while
`accessNonceStore`'s check treats `"0x0"` as empty code and returns 0. -/
theorem deployment_checks_disagree_on_0x0 :
    isDeployedCheck "0x0" = true ∧ codeIsEmpty "0x0" = true ∧
    (∀ last : Nat, getNonce "0x0" last none = (last, some last)) ∧
    (∀ stored : Nat, accessNonceStore "0x0" stored = 0) := by
  refine ⟨by decide, by decide, ?_, ?_⟩
  · intro last
    simp [getNonce, isDeployedCheck]
  · intro stored
    simp [accessNonceStore, codeIsEmpty]

theorem acquire_snd_locked (l : Lock) (tid : Nat) :
    (l.acquire tid).2.mLocked = true := by
  simp only [Lock.acquire]
  split
  · rfl
  · next h => simpa using h

theorem release_snd_locks (m : LockManager) (key k : String) :
    ((m.release key).2).locks k = m.locks k ∨
    ((m.release key).2).locks k = none ∨
    ∃ l1 : Lock, ((m.release key).2).locks k = some l1 ∧ l1.mLocked = true := by
  unfold LockManager.release
  split
  · left; rfl
  · split
    · left; rfl
    · next resumed l1 hrel =>
      split
      · by_cases hkk : k = key
        · right; left; simp [hkk]
        · left; simp [hkk]
      · next hl1 =>
        by_cases hkk : k = key
        · right; right
          exact ⟨l1, by simp [hkk], by simpa using hl1⟩
        · left; simp [hkk]

theorem reach_locks_locked {m : LockManager} (h : LockManager.Reach m) :
    ∀ k l, m.locks k = some l → l.mLocked = true := by
  induction h with
  | init =>
    intro k l hk
    exact absurd hk (by simp [LockManager.empty])
  | acq m key tid hm ih =>
    intro k l hk
    have heq : (m.acquire key tid).2.locks k =
        if k = key then some (((m.locks key).getD {}).acquire tid).2
        else m.locks k := rfl
    rw [heq] at hk
    by_cases hkk : k = key
    · rw [if_pos hkk] at hk
      have hl : l = (((m.locks key).getD {}).acquire tid).2 :=
        (Option.some.inj hk).symm
      rw [hl]
      exact acquire_snd_locked _ _
    · rw [if_neg hkk] at hk
      exact ih k l hk
  | rel m key hm ih =>
    intro k l hk
    rcases release_snd_locks m key k with h1 | h1 | ⟨l1, h1, h2⟩
    · rw [h1] at hk
      exact ih k l hk
    · rw [h1] at hk
      exact absurd hk (by simp)
    · have he : l1 = l := Option.some.inj (h1.symm.trans hk)
      rw [← he]
      exact h2

/-- C5: in every reachable `LockManager` state, every key present in the
mapping holds a lock that is currently locked (which gives the claimed
"locked or has queued waiters" disjunction); and a successful
`release(key)` that leaves the lock unlocked — which is exactly the
empty-waiter-queue release — removes the key from the mapping. -/
theorem lockManager_key_iff_active :
    (∀ m : LockManager, LockManager.Reach m →
      ∀ k l, m.locks k = some l → l.locked = true ∨ l.waiters ≠ []) ∧
    (∀ (m : LockManager) (key : String) (l : Lock) (res : Option Nat)
      (l2 : Lock), m.locks key = some l → l.release = (.ok res, l2) →
      l2.mLocked = false → ((m.release key).2).locks key = none) := by
  constructor
  · intro m hm k l hk
    left
    exact reach_locks_locked hm k l hk
  · intro m key l res l2 hk hrel hl2
    simp only [LockManager.release, hk]
    rw [hrel]
    simp [hl2]

theorem lockManager_key_iff_active_witness :
    (Lock.locked ⟨[], true⟩ = true ∨ ([] : List Nat) ≠ []) ∧
    ((((LockManager.empty.acquire "a" 0).2).release "a").2).locks "a" = none := by
  constructor
  · exact lockManager_key_iff_active.1 _
      (LockManager.Reach.acq _ "a" 0 LockManager.Reach.init) "a" ⟨[], true⟩
      (by decide)
  · exact lockManager_key_iff_active.2 _ "a" ⟨[], true⟩ none ⟨[], false⟩
      (by decide) rfl rfl

/-- C6: `withLock(key, func)` on a free key acquires the lock, runs
`func`, resolves to `func`'s value or rejects with `func`'s error, and the
`finally`-guaranteed `release(key)` has run on both the success and the
failure path before the call completes — witnessed by the key being absent
from the registry afterwards, every other key untouched. -/
theorem withLock_releases_on_both_paths {ε α : Type} (m : LockManager)
    (key : String) (tid : Nat) (func : Except ε α)
    (h : m.locks key = none) :
    ∃ m' : LockManager,
      (∀ v, func = .ok v → m.withLock key tid func = some (.ok v, m')) ∧
      (∀ e, func = .error e →
        m.withLock key tid func = some (.error (.inr e), m')) ∧
      m'.locks key = none ∧
      ∀ k, k ≠ key → m'.locks k = m.locks k := by
  refine ⟨((m.acquire key tid).2.release key).2, ?_, ?_, ?_, ?_⟩
  · intro v hv
    subst hv
    simp only [LockManager.withLock, LockManager.acquire, LockManager.release,
      Lock.acquire, Lock.release, h]
    simp
  · intro e he
    subst he
    simp only [LockManager.withLock, LockManager.acquire, LockManager.release,
      Lock.acquire, Lock.release, h]
    simp
  · simp only [LockManager.release, LockManager.acquire, Lock.acquire,
      Lock.release, h]
    simp
  · intro k hk
    simp only [LockManager.release, LockManager.acquire, Lock.acquire,
      Lock.release, h]
    simp [hk]

theorem withLock_releases_on_both_paths_witness :
    (∃ m' : LockManager,
      (∀ v, (Except.ok (3 : Nat) : Except QueryError Nat) = Except.ok v →
        LockManager.empty.withLock "a" 0
          (Except.ok (3 : Nat) : Except QueryError Nat) =
          some (Except.ok v, m')) ∧
      (∀ e, (Except.ok (3 : Nat) : Except QueryError Nat) = Except.error e →
        LockManager.empty.withLock "a" 0
          (Except.ok (3 : Nat) : Except QueryError Nat) =
          some (Except.error (Sum.inr e), m')) ∧
      m'.locks "a" = none ∧
      ∀ k, k ≠ "a" → m'.locks k = LockManager.empty.locks k) ∧
    (∃ m' : LockManager,
      (∀ v, (Except.error (QueryError.network "boom") : Except QueryError Nat) =
          Except.ok v →
        LockManager.empty.withLock "a" 0
          (Except.error (QueryError.network "boom") : Except QueryError Nat) =
          some (Except.ok v, m')) ∧
      (∀ e, (Except.error (QueryError.network "boom") : Except QueryError Nat) =
          Except.error e →
        LockManager.empty.withLock "a" 0
          (Except.error (QueryError.network "boom") : Except QueryError Nat) =
          some (Except.error (Sum.inr e), m')) ∧
      m'.locks "a" = none ∧
      ∀ k, k ≠ "a" → m'.locks k = LockManager.empty.locks k) :=
  ⟨withLock_releases_on_both_paths LockManager.empty "a" 0
      (Except.ok (3 : Nat) : Except QueryError Nat) rfl,
   withLock_releases_on_both_paths LockManager.empty "a" 0
      (Except.error (QueryError.network "boom") : Except QueryError Nat) rfl⟩

/-- C7: if the external query fails on the very first read (nonce field
unset), `getEncodedReplayProtection` rejects with the external error
propagated unmodified (whether the `getCode` call or the contract
`nonce()` call failed), the nonce field stays unset and the lock is
released again by the `finally` block; a subsequent successful call still
takes the initial-resolution path (deployment check plus external fetch,
last flag `true`), not the increment path. -/
theorem first_query_failure_clean_state :
    (∀ (tid : Nat) (e : QueryError) (nr : Except QueryError Nat),
      getEncodedReplayProtection ⟨[], false⟩ tid (.error e) nr none =
        some (.error (.inr e), ⟨[], false⟩, none, true)) ∧
    (∀ (tid : Nat) (e : QueryError) (code : String),
      isDeployedCheck code = true →
      getEncodedReplayProtection ⟨[], false⟩ tid (.ok code) (.error e) none =
        some (.error (.inr e), ⟨[], false⟩, none, true)) ∧
    (∀ (tid : Nat) (code : String) (last : Nat),
      getEncodedReplayProtection ⟨[], false⟩ tid (.ok code) (.ok last) none =
        some (.ok (if isDeployedCheck code then last else 0), ⟨[], false⟩,
          some (if isDeployedCheck code then last else 0), true)) := by
  refine ⟨?_, ?_, ?_⟩
  · intro tid e nr
    rfl
  · intro tid e code h
    simp [getEncodedReplayProtection, getNonceE, Lock.acquire, Lock.release, h]
  · intro tid code last
    by_cases hd : isDeployedCheck code = true
    · simp [getEncodedReplayProtection, getNonceE, Lock.acquire, Lock.release,
        hd]
    · simp [getEncodedReplayProtection, getNonceE, Lock.acquire, Lock.release,
        hd]

theorem first_query_failure_clean_state_witness :
    getEncodedReplayProtection ⟨[], false⟩ 0
        (.error (.network "boom")) (.ok 5) none =
      some (.error (.inr (.network "boom")), ⟨[], false⟩, none, true) ∧
    getEncodedReplayProtection ⟨[], false⟩ 0
        (.ok "0x6080") (.error (.network "boom")) none =
      some (.error (.inr (.network "boom")), ⟨[], false⟩, none, true) ∧
    getEncodedReplayProtection ⟨[], false⟩ 0 (.ok "0x6080") (.ok 41) none =
      some (.ok (if isDeployedCheck "0x6080" then 41 else 0), ⟨[], false⟩,
        some (if isDeployedCheck "0x6080" then 41 else 0), true) :=
  ⟨first_query_failure_clean_state.1 0 (.network "boom") (.ok 5),
   first_query_failure_clean_state.2.1 0 (.network "boom") "0x6080" (by decide),
   first_query_failure_clean_state.2.2 0 "0x6080" 41⟩

/-- C1: for every K and every schedule, when K concurrent calls of
`getEncodedReplayProtection` (all issued before any resolves) have all
completed, the K returned nonces are exactly the K consecutive integers
starting at the initial value resolved from the environment (no
duplicates, no gaps, as a permutation of `range'`), and the external
deployment/last-value query was performed at most once. -/
theorem concurrent_next_consecutive_single_query (env : Env) (K : Nat)
    (s : Sys) (hr : Reachable env K s)
    (hdone : ∀ pc ∈ s.pcs, pc.isDone = true) :
    List.Perm (doneRes s.pcs) (List.range' env.initVal K) ∧
      s.queryCount ≤ 1 := by
  have hinv := sysInv_reachable hr
  have hD : (doneRes s.pcs).length = K := by
    rw [doneRes_length_of_all_done hdone]
    exact hinv.len
  constructor
  · have hp := hinv.done_perm
    rwa [hD] at hp
  · rw [hinv.query_eq]
    split
    · omega
    · omega

theorem concurrent_next_consecutive_single_query_witness :
    List.Perm (doneRes [PC.done 0, PC.done 1])
      (List.range' (Env.mk "0x" 5).initVal 2) ∧
    (Sys.mk [PC.done 0, PC.done 1] false [] (some 1) 1).queryCount ≤ 1 := by
  have hr : Reachable ⟨"0x", 5⟩ 2 ⟨[PC.done 0, PC.done 1], false, [], some 1, 1⟩ := by
    apply Relation.ReflTransGen.head
      (Step.startFree ⟨[PC.start, PC.start], false, [], none, 0⟩ 0 rfl rfl)
    apply Relation.ReflTransGen.head
      (Step.startLocked ⟨[PC.cs0, PC.start], true, [], none, 0⟩ 1 rfl rfl)
    apply Relation.ReflTransGen.head
      (Step.cs0Fetch ⟨[PC.cs0, PC.waiting], true, [1], none, 0⟩ 0 rfl rfl)
    apply Relation.ReflTransGen.head
      (Step.fetchDone ⟨[PC.fetch, PC.waiting], true, [1], none, 1⟩ 0 rfl)
    apply Relation.ReflTransGen.head
      (Step.relWaiter ⟨[PC.rel 0, PC.waiting], true, [1], some 0, 1⟩ 0 0 1 [] rfl rfl)
    apply Relation.ReflTransGen.head
      (Step.cs0Incr ⟨[PC.done 0, PC.cs0], true, [], some 0, 1⟩ 1 0 rfl rfl)
    apply Relation.ReflTransGen.head
      (Step.relNone ⟨[PC.done 0, PC.rel 1], true, [], some 1, 1⟩ 1 1 rfl rfl)
    exact Relation.ReflTransGen.refl
  exact concurrent_next_consecutive_single_query ⟨"0x", 5⟩ 2
    ⟨[PC.done 0, PC.done 1], false, [], some 1, 1⟩ hr (by decide)
